import Mathlib

/-
Verification of the core of `src/queryv2.py` (a Solana transaction scanner)
against its natural-language specification.

Numeric model: Python balance arrays hold integers (lamports); the code
divides them by 1e9 before comparing.  All such arithmetic is exact here,
carried out in `ℚ`.  Python dicts are modelled as association lists with
insert-or-overwrite-in-place semantics (the insertion order of a key is the
order Python iterates `dict.items()` in, and an overwrite keeps the key's
original position).  Fallible operations (an RPC call that may return no
result, an index access that may raise) are modelled with `Option`; the one
uncaught exception path of the scanner is modelled with `Except`.
-/

namespace SolTxnQuery

/-- One entry of the `changes` mapping built by `_analyze_balance_changes`:
pre/post balances and their difference, in whole-coin units (the raw
integer balances divided by 1e9). -/
structure BalanceChange where
  pre_balance : ℚ
  post_balance : ℚ
  change : ℚ
  deriving DecidableEq, Repr

/-- Division of a raw integer balance by 1e9, as the code does before every
comparison (`pre_balances[i] / 1e9`). -/
def lamportsToSol (n : ℤ) : ℚ := (n : ℚ) / 1000000000

/-- Python dict assignment `d[k] = v`: when the key is already present its
value is overwritten in place (the key keeps its position in iteration
order); otherwise the pair is appended at the end. -/
def dictInsert {α : Type} : List (String × α) → String → α → List (String × α)
  | [], k, v => [(k, v)]
  | p :: ps, k, v => if p.1 = k then (k, v) :: ps else p :: dictInsert ps k v

/-- Python dict lookup `d.get(k)`. -/
def dictLookup {α : Type} : List (String × α) → String → Option α
  | [], _ => none
  | p :: ps, k => if p.1 = k then some p.2 else dictLookup ps k

/-- The keys of a modelled dict, in iteration order. -/
def dictKeys {α : Type} (d : List (String × α)) : List String := d.map Prod.fst

/-- The loop of `_analyze_balance_changes`: `i` runs over the indices of
`pre_balances`; an index at which `post_balances` or `account_keys` has
already run out is skipped (`continue`), so the loop body only ever fires
while all three lists are nonempty and recursion on all three is faithful.
The body stores `account_keys[i] -> (pre, post, change)` in the dict when
`abs(change) >= min_amount_threshold`. -/
def analyzeAux (thr : ℚ) :
    List ℤ → List ℤ → List String → List (String × BalanceChange) →
      List (String × BalanceChange)
  | p :: ps, q :: qs, a :: ks, acc =>
    analyzeAux thr ps qs ks
      (if thr ≤ |lamportsToSol q - lamportsToSol p| then
        dictInsert acc a
          ⟨lamportsToSol p, lamportsToSol q, lamportsToSol q - lamportsToSol p⟩
      else acc)
  | _, _, _, acc => acc

/-- `TransactionScanner._analyze_balance_changes(pre_balances, post_balances,
account_keys)` with the client's `min_amount_threshold`. -/
def analyzeBalanceChanges (thr : ℚ) (pre post : List ℤ) (keys : List String) :
    List (String × BalanceChange) :=
  analyzeAux thr pre post keys []

/-- Index `i` lies inside all three input arrays and its balance delta
clears the threshold: exactly the condition under which the loop body of
`_analyze_balance_changes` stores an entry for `account_keys[i]`. -/
def qualifies (thr : ℚ) (pre post : List ℤ) (keys : List String) (i : ℕ) : Prop :=
  i < pre.length ∧ i < post.length ∧ i < keys.length ∧
    thr ≤ |lamportsToSol (post.getD i 0) - lamportsToSol (pre.getD i 0)|

instance (thr : ℚ) (pre post : List ℤ) (keys : List String) (i : ℕ) :
    Decidable (qualifies thr pre post keys i) := by
  unfold qualifies; infer_instance

/-- The entry the loop body of `_analyze_balance_changes` stores for
index `i`. -/
def entryAt (pre post : List ℤ) (i : ℕ) : BalanceChange :=
  ⟨lamportsToSol (pre.getD i 0), lamportsToSol (post.getD i 0),
    lamportsToSol (post.getD i 0) - lamportsToSol (pre.getD i 0)⟩

/-- The entry that survives for key `k` once the whole loop has run: the one
written at the last qualifying index carrying `k`, when any exists. -/
def lastEntry (thr : ℚ) :
    List ℤ → List ℤ → List String → String → Option BalanceChange
  | p :: ps, q :: qs, a :: ks, k =>
    match lastEntry thr ps qs ks k with
    | some v => some v
    | none =>
      if a = k ∧ thr ≤ |lamportsToSol q - lamportsToSol p| then
        some ⟨lamportsToSol p, lamportsToSol q, lamportsToSol q - lamportsToSol p⟩
      else none
  | _, _, _, _ => none

theorem dictLookup_insert_self {α : Type} (d : List (String × α)) (k : String) (v : α) :
    dictLookup (dictInsert d k v) k = some v := by
  induction d with
  | nil => simp [dictInsert, dictLookup]
  | cons p ps ih =>
    by_cases h : p.1 = k
    · simp [dictInsert, dictLookup, h]
    · simp [dictInsert, dictLookup, h, ih]

theorem dictLookup_insert_ne {α : Type} (d : List (String × α)) (k k' : String) (v : α)
    (h : k' ≠ k) : dictLookup (dictInsert d k v) k' = dictLookup d k' := by
  induction d with
  | nil => simp [dictInsert, dictLookup, Ne.symm h]
  | cons p ps ih =>
    by_cases hp : p.1 = k
    · simp [dictInsert, dictLookup, hp, Ne.symm h]
    · simp only [dictInsert, hp, if_false, dictLookup, ih]

theorem dictKeys_insert {α : Type} (d : List (String × α)) (k : String) (v : α) :
    dictKeys (dictInsert d k v) =
      if k ∈ dictKeys d then dictKeys d else dictKeys d ++ [k] := by
  induction d with
  | nil => simp [dictInsert, dictKeys]
  | cons p ps ih =>
    by_cases hp : p.1 = k
    · simp [dictInsert, dictKeys, hp]
    · have hkp : ¬ (k = p.1) := fun e => hp e.symm
      rw [dictInsert, if_neg hp]
      have hcons : dictKeys (p :: dictInsert ps k v) =
          p.1 :: dictKeys (dictInsert ps k v) := rfl
      rw [hcons, ih]
      simp only [dictKeys] at *
      by_cases hm : k ∈ List.map Prod.fst ps
      · simp [hm, hkp]
      · simp [hm, hkp]

theorem dictKeys_nodup_insert {α : Type} (d : List (String × α)) (k : String) (v : α)
    (h : (dictKeys d).Nodup) : (dictKeys (dictInsert d k v)).Nodup := by
  rw [dictKeys_insert]
  by_cases hm : k ∈ dictKeys d
  · simpa [hm] using h
  · simp only [hm, if_false]
    simpa [List.nodup_append] using ⟨h, hm⟩

theorem dictLookup_isSome_iff {α : Type} (d : List (String × α)) (k : String) :
    (dictLookup d k).isSome = true ↔ k ∈ dictKeys d := by
  induction d with
  | nil => simp [dictLookup, dictKeys]
  | cons p ps ih =>
    by_cases h : p.1 = k
    · simp [dictLookup, dictKeys, h]
    · have : ¬ (k = p.1) := fun e => h e.symm
      simp [dictLookup, dictKeys, h, this, ih]

theorem dictLookup_analyzeAux (thr : ℚ) (k : String) :
    ∀ (pre post : List ℤ) (keys : List String) (acc : List (String × BalanceChange)),
      dictLookup (analyzeAux thr pre post keys acc) k =
        match lastEntry thr pre post keys k with
        | some v => some v
        | none => dictLookup acc k := by
  intro pre
  induction pre with
  | nil => intro post keys acc; simp [analyzeAux, lastEntry]
  | cons p ps ih =>
    intro post keys acc
    cases post with
    | nil => simp [analyzeAux, lastEntry]
    | cons q qs =>
      cases keys with
      | nil => simp [analyzeAux, lastEntry]
      | cons a ks =>
        rw [analyzeAux, ih]
        cases hle : lastEntry thr ps qs ks k with
        | some v => simp [lastEntry, hle]
        | none =>
          simp only [lastEntry, hle]
          by_cases hq : thr ≤ |lamportsToSol q - lamportsToSol p|
          · by_cases ha : a = k
            · subst ha
              simp [hq, dictLookup_insert_self]
            · have hk : k ≠ a := fun e => ha e.symm
              simp [hq, ha, dictLookup_insert_ne _ _ _ _ hk]
          · simp [hq]

theorem dictLookup_analyze (thr : ℚ) (pre post : List ℤ) (keys : List String) (k : String) :
    dictLookup (analyzeBalanceChanges thr pre post keys) k =
      lastEntry thr pre post keys k := by
  rw [analyzeBalanceChanges, dictLookup_analyzeAux]
  cases lastEntry thr pre post keys k <;> simp [dictLookup]

theorem dictKeys_analyzeAux_nodup (thr : ℚ) :
    ∀ (pre post : List ℤ) (keys : List String) (acc : List (String × BalanceChange)),
      (dictKeys acc).Nodup → (dictKeys (analyzeAux thr pre post keys acc)).Nodup := by
  intro pre
  induction pre with
  | nil => intro post keys acc h; simpa [analyzeAux] using h
  | cons p ps ih =>
    intro post keys acc h
    cases post with
    | nil => simpa [analyzeAux] using h
    | cons q qs =>
      cases keys with
      | nil => simpa [analyzeAux] using h
      | cons a ks =>
        rw [analyzeAux]
        apply ih
        by_cases hq : thr ≤ |lamportsToSol q - lamportsToSol p|
        · simpa [hq] using dictKeys_nodup_insert _ _ _ h
        · simpa [hq] using h

theorem dictKeys_analyze_nodup (thr : ℚ) (pre post : List ℤ) (keys : List String) :
    (dictKeys (analyzeBalanceChanges thr pre post keys)).Nodup :=
  dictKeys_analyzeAux_nodup thr pre post keys [] (by simp [dictKeys])

theorem qualifies_nil_post (thr : ℚ) (pre : List ℤ) (keys : List String) (i : ℕ) :
    ¬ qualifies thr pre [] keys i := by
  simp [qualifies]

theorem qualifies_nil_keys (thr : ℚ) (pre post : List ℤ) (i : ℕ) :
    ¬ qualifies thr pre post [] i := by
  simp [qualifies]

theorem qualifies_cons_zero (thr : ℚ) (p q : ℤ) (a : String)
    (ps qs : List ℤ) (ks : List String) :
    qualifies thr (p :: ps) (q :: qs) (a :: ks) 0 ↔
      thr ≤ |lamportsToSol q - lamportsToSol p| := by
  simp [qualifies]

theorem qualifies_cons_succ (thr : ℚ) (p q : ℤ) (a : String)
    (ps qs : List ℤ) (ks : List String) (i : ℕ) :
    qualifies thr (p :: ps) (q :: qs) (a :: ks) (i + 1) ↔
      qualifies thr ps qs ks i := by
  simp [qualifies, Nat.succ_lt_succ_iff]

theorem lastEntry_isSome_iff (thr : ℚ) :
    ∀ (pre post : List ℤ) (keys : List String) (k : String),
      (lastEntry thr pre post keys k).isSome = true ↔
        ∃ i, qualifies thr pre post keys i ∧ keys.getD i "" = k := by
  intro pre
  induction pre with
  | nil =>
    intro post keys k
    simp [lastEntry, qualifies]
  | cons p ps ih =>
    intro post keys k
    cases post with
    | nil => simp [lastEntry, qualifies]
    | cons q qs =>
      cases keys with
      | nil => simp [lastEntry, qualifies]
      | cons a ks =>
        constructor
        · intro h
          rw [lastEntry] at h
          cases hle : lastEntry thr ps qs ks k with
          | some v =>
            obtain ⟨i, hi, hk⟩ := (ih qs ks k).mp (by simp [hle])
            exact ⟨i + 1, (qualifies_cons_succ ..).mpr hi, by simpa using hk⟩
          | none =>
            rw [hle] at h
            by_cases hc : a = k ∧ thr ≤ |lamportsToSol q - lamportsToSol p|
            · exact ⟨0, (qualifies_cons_zero ..).mpr hc.2, by simpa using hc.1⟩
            · simp [hc] at h
        · rintro ⟨i, hi, hk⟩
          rw [lastEntry]
          cases hle : lastEntry thr ps qs ks k with
          | some v => simp
          | none =>
            cases i with
            | zero =>
              have hq := (qualifies_cons_zero ..).mp hi
              have ha : a = k := by simpa using hk
              simp [ha, hq]
            | succ j =>
              have hq := (qualifies_cons_succ ..).mp hi
              have : (lastEntry thr ps qs ks k).isSome = true :=
                (ih qs ks k).mpr ⟨j, hq, by simpa using hk⟩
              rw [hle] at this
              simp at this

theorem entryAt_cons_succ (p q : ℤ) (ps qs : List ℤ) (i : ℕ) :
    entryAt (p :: ps) (q :: qs) (i + 1) = entryAt ps qs i := by
  simp [entryAt]

theorem lastEntry_eq_of_last (thr : ℚ) :
    ∀ (pre post : List ℤ) (keys : List String) (j : ℕ),
      qualifies thr pre post keys j →
      (∀ l, qualifies thr pre post keys l → keys.getD l "" = keys.getD j "" → l ≤ j) →
      lastEntry thr pre post keys (keys.getD j "") = some (entryAt pre post j) := by
  intro pre
  induction pre with
  | nil => intro post keys j hj _; exact absurd hj.1 (by simp)
  | cons p ps ih =>
    intro post keys j hj hlast
    cases post with
    | nil => exact absurd hj (qualifies_nil_post thr (p :: ps) keys j)
    | cons q qs =>
      cases keys with
      | nil => exact absurd hj (qualifies_nil_keys thr (p :: ps) (q :: qs) j)
      | cons a ks =>
        cases j with
        | zero =>
          have hq := (qualifies_cons_zero ..).mp hj
          have hrec : lastEntry thr ps qs ks ((a :: ks).getD 0 "") = none := by
            cases hle : lastEntry thr ps qs ks ((a :: ks).getD 0 "") with
            | none => rfl
            | some v =>
              obtain ⟨i, hi, hk⟩ :=
                (lastEntry_isSome_iff thr ps qs ks ((a :: ks).getD 0 "")).mp
                  (by rw [hle]; rfl)
              have : i + 1 ≤ 0 :=
                hlast (i + 1) ((qualifies_cons_succ ..).mpr hi)
                  (by rw [List.getD_cons_succ]; exact hk)
              omega
          rw [lastEntry, hrec]
          simp [entryAt, hq]
        | succ j' =>
          have hq := (qualifies_cons_succ ..).mp hj
          have hk : (a :: ks).getD (j' + 1) "" = ks.getD j' "" := by simp
          have hlast' : ∀ l, qualifies thr ps qs ks l →
              ks.getD l "" = ks.getD j' "" → l ≤ j' := by
            intro l hl he
            have : l + 1 ≤ j' + 1 :=
              hlast (l + 1) ((qualifies_cons_succ ..).mpr hl)
                (by simpa using he)
            omega
          have := ih qs ks j' hq hlast'
          rw [lastEntry, hk, this, entryAt_cons_succ]

theorem getD_mem_of_lt (l : List String) :
    ∀ i, i < l.length → l.getD i "" ∈ l := by
  induction l with
  | nil => intro i h; simp at h
  | cons a ks ih =>
    intro i h
    cases i with
    | zero => simp
    | succ j =>
      have : j < ks.length := by simpa using h
      rw [List.getD_cons_succ]
      exact List.mem_cons_of_mem a (ih j this)

theorem nodup_getD_inj (keys : List String) :
    keys.Nodup → ∀ i j, i < keys.length → j < keys.length →
      keys.getD i "" = keys.getD j "" → i = j := by
  induction keys with
  | nil => intro _ i j hi; simp at hi
  | cons a ks ih =>
    intro hnd i j hi hj he
    rw [List.nodup_cons] at hnd
    cases i with
    | zero =>
      cases j with
      | zero => rfl
      | succ j' =>
        rw [List.getD_cons_zero, List.getD_cons_succ] at he
        have : j' < ks.length := by simpa using hj
        exact absurd (he ▸ getD_mem_of_lt ks j' this) hnd.1
    | succ i' =>
      cases j with
      | zero =>
        rw [List.getD_cons_succ, List.getD_cons_zero] at he
        have : i' < ks.length := by simpa using hi
        exact absurd (he ▸ getD_mem_of_lt ks i' this) hnd.1
      | succ j' =>
        rw [List.getD_cons_succ, List.getD_cons_succ] at he
        have hi' : i' < ks.length := by simpa using hi
        have hj' : j' < ks.length := by simpa using hj
        exact congrArg Nat.succ (ih hnd.2 i' j' hi' hj' he)

/-- The `significant_transfers` loop of `_parse_transaction`: the candidates,
one per entry of the balance-change dict whose `abs(change)` clears the
threshold again (the filter is redundant with the extractor's own), in dict
iteration order. -/
def significantTransfers (thr : ℚ) :
    List (String × BalanceChange) → List (String × BalanceChange)
  | [] => []
  | t :: ts =>
    if thr ≤ |t.2.change| then t :: significantTransfers thr ts
    else significantTransfers thr ts

/-- How many entries of a candidate list carry account key `k`. -/
def countKey (k : String) : List (String × BalanceChange) → ℕ
  | [] => 0
  | t :: ts => (if t.1 = k then 1 else 0) + countKey k ts

theorem countKey_eq_zero_of_not_mem (k : String) :
    ∀ d : List (String × BalanceChange), k ∉ dictKeys d → countKey k d = 0 := by
  intro d
  induction d with
  | nil => intro _; rfl
  | cons t ts ih =>
    intro h
    simp only [dictKeys, List.map_cons, List.mem_cons, not_or] at h
    have : ¬ (t.1 = k) := fun e => h.1 e.symm
    simp only [countKey, this, if_false, Nat.zero_add]
    exact ih (by simpa [dictKeys] using h.2)

theorem countKey_le_one_of_nodup (k : String) :
    ∀ d : List (String × BalanceChange), (dictKeys d).Nodup → countKey k d ≤ 1 := by
  intro d
  induction d with
  | nil => intro _; simp [countKey]
  | cons t ts ih =>
    intro h
    have h' : t.1 ∉ dictKeys ts ∧ (dictKeys ts).Nodup := by
      simpa [dictKeys, List.nodup_cons] using h
    by_cases ht : t.1 = k
    · have : countKey k ts = 0 := countKey_eq_zero_of_not_mem k ts (ht ▸ h'.1)
      simp [countKey, ht, this]
    · simpa [countKey, ht] using ih h'.2

theorem countKey_significant_le (thr : ℚ) (k : String) :
    ∀ d : List (String × BalanceChange),
      countKey k (significantTransfers thr d) ≤ countKey k d := by
  intro d
  induction d with
  | nil => simp [significantTransfers]
  | cons t ts ih =>
    by_cases hs : thr ≤ |t.2.change|
    · simp only [significantTransfers, hs, if_true, countKey]
      omega
    · simp only [significantTransfers, hs, if_false, countKey]
      omega

/-- Claim C1 fails as stated on duplicate account keys: with `"A"` at both
index 0 and index 1, both qualifying, the stored entry for `"A"` is the one
from index 1 (change 3), not the index-0 values (change 2) the claim
promises for the qualifying index 0. -/
theorem extractor_stored_entry_counterexample :
    qualifies 1 [0, 0] [2000000000, 3000000000] ["A", "A"] 0 ∧
    entryAt [0, 0] [2000000000, 3000000000] 0 = ⟨0, 2, 2⟩ ∧
    dictLookup (analyzeBalanceChanges 1 [0, 0] [2000000000, 3000000000] ["A", "A"]) "A" =
      some ⟨0, 3, 3⟩ ∧
    (⟨0, 3, 3⟩ : BalanceChange) ≠ (⟨0, 2, 2⟩ : BalanceChange) := by
  refine ⟨?_, ?_, ?_, ?_⟩
  · norm_num [qualifies, lamportsToSol, abs, max_def]
  · norm_num [entryAt, lamportsToSol]
  · norm_num [analyzeBalanceChanges, analyzeAux, dictInsert, dictLookup,
      lamportsToSol, abs, max_def]
  · intro h
    have := congrArg BalanceChange.change h
    norm_num at this

/-- Claim C1 (amended): for every pre-balance list, post-balance list,
account-key list and positive min_threshold, the extractor includes
account_keys[i] in its output exactly when i is below the length of all
three lists and the absolute balance change at i (in whole-coin units) is
at least min_threshold, boundary included; and the stored entry holds
pre_balance = pre[i]/1e9, post_balance = post[i]/1e9 and
change = post − pre taken at the last qualifying index bearing that key —
in particular at index i itself whenever the account keys are distinct. -/
theorem extractor_threshold_membership_spec (thr : ℚ) (pre post : List ℤ)
    (keys : List String) (hthr : 0 < thr) (k : String) :
    (k ∈ dictKeys (analyzeBalanceChanges thr pre post keys) ↔
      ∃ i, qualifies thr pre post keys i ∧ keys.getD i "" = k) ∧
    (keys.Nodup → ∀ i, qualifies thr pre post keys i →
      dictLookup (analyzeBalanceChanges thr pre post keys) (keys.getD i "") =
        some (entryAt pre post i)) := by
  constructor
  · rw [← dictLookup_isSome_iff, dictLookup_analyze]
    exact lastEntry_isSome_iff thr pre post keys k
  · intro hnd i hi
    rw [dictLookup_analyze]
    apply lastEntry_eq_of_last thr pre post keys i hi
    intro l hl he
    have : l = i := nodup_getD_inj keys hnd l i hl.2.2.1 hi.2.2.1 he
    omega

/-- Witness for the amended C1 theorem at a concrete input. -/
theorem extractor_threshold_membership_spec_witness :
    ("A" ∈ dictKeys (analyzeBalanceChanges 1 [0] [2000000000] ["A"]) ↔
      ∃ i, qualifies 1 [0] [2000000000] ["A"] i ∧ ["A"].getD i "" = "A") ∧
    (["A"].Nodup → ∀ i, qualifies 1 [0] [2000000000] ["A"] i →
      dictLookup (analyzeBalanceChanges 1 [0] [2000000000] ["A"]) (["A"].getD i "") =
        some (entryAt [0] [2000000000] i)) :=
  extractor_threshold_membership_spec 1 [0] [2000000000] ["A"] (by norm_num) "A"

/-- Claim C9: when the same account key appears at more than one qualifying
index, the extractor's mapping retains only the entry from the last such
index (earlier occurrences are overwritten), and that key contributes at
most one candidate to the Matcher's candidate list. -/
theorem extractor_duplicate_key_spec (thr : ℚ) (pre post : List ℤ)
    (keys : List String) (j : ℕ) (hj : qualifies thr pre post keys j)
    (hlast : ∀ l, qualifies thr pre post keys l →
      keys.getD l "" = keys.getD j "" → l ≤ j) :
    dictLookup (analyzeBalanceChanges thr pre post keys) (keys.getD j "") =
      some (entryAt pre post j) ∧
    countKey (keys.getD j "")
      (significantTransfers thr (analyzeBalanceChanges thr pre post keys)) ≤ 1 := by
  constructor
  · rw [dictLookup_analyze]
    exact lastEntry_eq_of_last thr pre post keys j hj hlast
  · exact le_trans
      (countKey_significant_le thr (keys.getD j "") (analyzeBalanceChanges thr pre post keys))
      (countKey_le_one_of_nodup (keys.getD j "") (analyzeBalanceChanges thr pre post keys)
        (dictKeys_analyze_nodup thr pre post keys))

/-- Witness for the C9 theorem: key "A" qualifies at indices 0 and 1; the
retained entry is the one from index 1. -/
theorem extractor_duplicate_key_spec_witness :
    dictLookup (analyzeBalanceChanges 1 [0, 0] [2000000000, 3000000000] ["A", "A"])
        (["A", "A"].getD 1 "") =
      some (entryAt [0, 0] [2000000000, 3000000000] 1) ∧
    countKey (["A", "A"].getD 1 "")
      (significantTransfers 1
        (analyzeBalanceChanges 1 [0, 0] [2000000000, 3000000000] ["A", "A"])) ≤ 1 :=
  extractor_duplicate_key_spec 1 [0, 0] [2000000000, 3000000000] ["A", "A"] 1
    (by norm_num [qualifies, lamportsToSol, abs, max_def])
    (by
      intro l hl _
      have : l < 2 := by simpa using hl.1
      omega)

/-- The metadata record of a raw RPC transaction (`tx["meta"]`), with the
fields `_parse_transaction` reads.  `err` is `none` for a null/absent error
status; the balance arrays and `fee` default to empty/zero exactly as the
code's `meta.get(..., default)` calls do. -/
structure TxMeta where
  err : Option Unit
  preBalances : List ℤ
  postBalances : List ℤ
  fee : ℤ
  deriving DecidableEq, Repr

/-- The message record: `accountKeys` is `some l` when the key is present
with a list value (the `isinstance(..., list)` test), otherwise `none`;
`accounts` defaults to the empty list when absent. -/
structure TxMessage where
  accountKeys : Option (List String)
  accounts : List String
  deriving DecidableEq, Repr

/-- `tx["transaction"]`: its optional message and optional signatures list. -/
structure TxData where
  message : Option TxMessage
  signatures : Option (List String)
  deriving DecidableEq, Repr

/-- A raw RPC transaction object as `_parse_transaction` and
`scan_for_amount` consume it; every field may be absent. -/
structure Tx where
  meta : Option TxMeta
  transaction : Option TxData
  message : Option TxMessage
  deriving DecidableEq, Repr

def emptyMeta : TxMeta := ⟨none, [], [], 0⟩

def emptyMessage : TxMessage := ⟨none, []⟩

/-- `tx.get("meta", ...)` with the empty-dict default. -/
def metaOf (tx : Tx) : TxMeta := tx.meta.getD emptyMeta

/-- `tx["transaction"].get("message", ...)` when `"transaction" in tx`, else
`tx.get("message", ...)`. -/
def messageOf (tx : Tx) : TxMessage :=
  match tx.transaction with
  | some td => td.message.getD emptyMessage
  | none => tx.message.getD emptyMessage

/-- `message.get("accountKeys", []) if isinstance(message.get("accountKeys"),
list) else message.get("accounts", [])`. -/
def accountKeysOf (tx : Tx) : List String :=
  match (messageOf tx).accountKeys with
  | some l => l
  | none => (messageOf tx).accounts

/-- The balance-change dict `_parse_transaction` computes for a transaction. -/
def balanceChangesOf (thr : ℚ) (tx : Tx) : List (String × BalanceChange) :=
  analyzeBalanceChanges thr (metaOf tx).preBalances (metaOf tx).postBalances
    (accountKeysOf tx)

/-- The `matches` loop: candidates whose `abs(abs(change) - target_amount)`
is at most `tolerance`, in candidate order. -/
def matchesOf (target tol : ℚ) :
    List (String × BalanceChange) → List (String × BalanceChange)
  | [] => []
  | t :: ts =>
    if |(|t.2.change|) - target| ≤ tol then t :: matchesOf target tol ts
    else matchesOf target tol ts

/-- One step of Python's `max(..., key=lambda x: abs(x["change"]))`: the
running maximum is replaced only on a strictly larger key, so on ties the
earlier element wins. -/
def maxByAbsChange (acc x : String × BalanceChange) : String × BalanceChange :=
  if |acc.2.change| < |x.2.change| then x else acc

/-- `max(matches, key=lambda x: abs(x["change"]))` over a possibly empty
list: `none` on the empty list (the code only takes it on `if matches:`). -/
def bestMatchOf : List (String × BalanceChange) → Option (String × BalanceChange)
  | [] => none
  | m :: ms => some (ms.foldl maxByAbsChange m)

/-- The counterparty search: the first candidate with a different account
whose change cancels `best`'s change to within `min_amount_threshold`
(strict comparison), scanning candidates in production order; `break` on
the first hit. -/
def counterpartyOf (thr : ℚ) (best : String × BalanceChange) :
    List (String × BalanceChange) → Option (String × BalanceChange)
  | [] => none
  | t :: ts =>
    if t.1 ≠ best.1 ∧ |t.2.change + best.2.change| < thr then some t
    else counterpartyOf thr best ts

/-- The result dict `_parse_transaction` returns on a match. -/
structure MatchedTransfer where
  amount : ℚ
  sender : Option String
  receiver : Option String
  fee : ℚ
  balance_changes : List (String × BalanceChange)
  deriving DecidableEq, Repr

/-- The `result` record built from `best_match` and the counterparty search:
sender is best's account on a negative change, else the counterparty's
account if found; receiver symmetrically on a positive change; fee is the
metadata fee over 1e9. -/
def mkResult (thr : ℚ) (tx : Tx) (best : String × BalanceChange) : MatchedTransfer :=
  { amount := |best.2.change|
    sender := if best.2.change < 0 then some best.1
      else (counterpartyOf thr best
        (significantTransfers thr (balanceChangesOf thr tx))).map Prod.fst
    receiver := if 0 < best.2.change then some best.1
      else (counterpartyOf thr best
        (significantTransfers thr (balanceChangesOf thr tx))).map Prod.fst
    fee := lamportsToSol (metaOf tx).fee
    balance_changes := balanceChangesOf thr tx }

/-- `TransactionScanner._parse_transaction(tx, target_amount, tolerance)`:
reject on a non-null error status or empty balance arrays or empty account
keys; otherwise build candidates and matches and return the result record
for the best match, or `None` when there is no match. -/
def parseTransaction (thr : ℚ) (tx : Tx) (target tol : ℚ) : Option MatchedTransfer :=
  if (metaOf tx).err.isSome then none
  else if (metaOf tx).preBalances = [] ∨ (metaOf tx).postBalances = [] then none
  else if accountKeysOf tx = [] then none
  else
    match bestMatchOf (matchesOf target tol
        (significantTransfers thr (balanceChangesOf thr tx))) with
    | none => none
    | some best => some (mkResult thr tx best)

theorem mem_matchesOf (target tol : ℚ) (t : String × BalanceChange) :
    ∀ l : List (String × BalanceChange),
      t ∈ matchesOf target tol l ↔ t ∈ l ∧ |(|t.2.change|) - target| ≤ tol := by
  intro l
  induction l with
  | nil => simp [matchesOf]
  | cons x xs ih =>
    by_cases hx : |(|x.2.change|) - target| ≤ tol
    · simp only [matchesOf, hx, if_true, List.mem_cons, ih]
      constructor
      · rintro (rfl | ⟨hm, hc⟩)
        · exact ⟨Or.inl rfl, hx⟩
        · exact ⟨Or.inr hm, hc⟩
      · rintro ⟨rfl | hm, hc⟩
        · exact Or.inl rfl
        · exact Or.inr ⟨hm, hc⟩
    · simp only [matchesOf, hx, if_false, List.mem_cons, ih]
      constructor
      · rintro ⟨hm, hc⟩
        exact ⟨Or.inr hm, hc⟩
      · rintro ⟨rfl | hm, hc⟩
        · exact absurd hc hx
        · exact ⟨hm, hc⟩

theorem foldl_max_mem (ms : List (String × BalanceChange)) :
    ∀ m, ms.foldl maxByAbsChange m ∈ m :: ms := by
  induction ms with
  | nil => intro m; simp
  | cons x xs ih =>
    intro m
    rw [List.foldl_cons]
    rcases List.mem_cons.mp (ih (maxByAbsChange m x)) with h | h
    · rw [h]
      unfold maxByAbsChange
      by_cases hc : |m.2.change| < |x.2.change|
      · rw [if_pos hc]
        exact List.mem_cons_of_mem m (List.mem_cons_self x xs)
      · rw [if_neg hc]
        exact List.mem_cons_self m (x :: xs)
    · exact List.mem_cons_of_mem m (List.mem_cons_of_mem x h)

theorem foldl_max_ge (ms : List (String × BalanceChange)) :
    ∀ m t, t ∈ m :: ms → |t.2.change| ≤ |(ms.foldl maxByAbsChange m).2.change| := by
  induction ms with
  | nil =>
    intro m t ht
    rcases List.mem_cons.mp ht with h1 | h
    · rw [h1]
      exact le_refl _
    · simp at h
  | cons x xs ih =>
    intro m t ht
    rw [List.foldl_cons]
    have hbase : ∀ u : String × BalanceChange, u = m ∨ u = x →
        |u.2.change| ≤ |(maxByAbsChange m x).2.change| := by
      intro u hu
      unfold maxByAbsChange
      by_cases hc : |m.2.change| < |x.2.change|
      · rcases hu with rfl | rfl
        · rw [if_pos hc]; exact le_of_lt hc
        · rw [if_pos hc]
      · rcases hu with rfl | rfl
        · rw [if_neg hc]
        · rw [if_neg hc]; exact le_of_not_lt hc
    rcases List.mem_cons.mp ht with h1 | ht2
    · exact le_trans (hbase t (Or.inl h1))
        (ih (maxByAbsChange m x) _ (List.mem_cons_self _ _))
    · rcases List.mem_cons.mp ht2 with h2 | ht3
      · exact le_trans (hbase t (Or.inr h2))
          (ih (maxByAbsChange m x) _ (List.mem_cons_self _ _))
      · exact ih (maxByAbsChange m x) t (List.mem_cons_of_mem _ ht3)

theorem foldl_max_first (ms : List (String × BalanceChange)) :
    ∀ m, ∃ l1 l2, m :: ms = l1 ++ (ms.foldl maxByAbsChange m) :: l2 ∧
      ∀ x ∈ l1, |x.2.change| < |(ms.foldl maxByAbsChange m).2.change| := by
  induction ms with
  | nil =>
    intro m
    exact ⟨[], [], by simp, by simp⟩
  | cons x xs ih =>
    intro m
    rw [List.foldl_cons]
    by_cases hc : |m.2.change| < |x.2.change|
    · have hmx : maxByAbsChange m x = x := by rw [maxByAbsChange, if_pos hc]
      obtain ⟨l1, l2, heq, hlt⟩ := ih (maxByAbsChange m x)
      rw [hmx] at heq hlt ⊢
      refine ⟨m :: l1, l2, by rw [List.cons_append, ← heq], ?_⟩
      intro y hy
      rcases List.mem_cons.mp hy with rfl | hy
      · exact lt_of_lt_of_le hc
          (foldl_max_ge xs x x (List.mem_cons_self x xs))
      · exact hlt y hy
    · have hmx : maxByAbsChange m x = m := by rw [maxByAbsChange, if_neg hc]
      obtain ⟨l1, l2, heq, hlt⟩ := ih (maxByAbsChange m x)
      rw [hmx] at heq hlt ⊢
      cases l1 with
      | nil =>
        have hm : m = xs.foldl maxByAbsChange m := by
          simpa using congrArg (fun l => l.headD m) heq
        refine ⟨[], x :: xs, ?_, by simp⟩
        rw [← hm]
        rfl
      | cons z l1' =>
        have hz : m = z := by
          simpa using congrArg (fun l => l.headD m) heq
        subst hz
        have htail : xs = l1' ++ (xs.foldl maxByAbsChange m) :: l2 := by
          simpa using congrArg List.tail heq
        refine ⟨m :: x :: l1', l2,
          by rw [List.cons_append, List.cons_append, ← htail], ?_⟩
        intro y hy
        rcases List.mem_cons.mp hy with rfl | hy
        · exact hlt y (List.mem_cons_self _ _)
        · rcases List.mem_cons.mp hy with rfl | hy
          · exact lt_of_le_of_lt (le_of_not_lt hc) (hlt m (List.mem_cons_self _ _))
          · exact hlt y (List.mem_cons_of_mem _ hy)

theorem bestMatchOf_mem (l : List (String × BalanceChange))
    (b : String × BalanceChange) (h : bestMatchOf l = some b) : b ∈ l := by
  cases l with
  | nil => simp [bestMatchOf] at h
  | cons m ms =>
    rw [bestMatchOf] at h
    exact (Option.some.inj h) ▸ foldl_max_mem ms m

theorem bestMatchOf_ge (l : List (String × BalanceChange))
    (b : String × BalanceChange) (h : bestMatchOf l = some b) :
    ∀ t ∈ l, |t.2.change| ≤ |b.2.change| := by
  cases l with
  | nil => simp [bestMatchOf] at h
  | cons m ms =>
    rw [bestMatchOf] at h
    exact (Option.some.inj h) ▸ foldl_max_ge ms m

theorem bestMatchOf_first (l : List (String × BalanceChange))
    (b : String × BalanceChange) (h : bestMatchOf l = some b) :
    ∃ l1 l2, l = l1 ++ b :: l2 ∧ ∀ x ∈ l1, |x.2.change| < |b.2.change| := by
  cases l with
  | nil => simp [bestMatchOf] at h
  | cons m ms =>
    rw [bestMatchOf] at h
    exact (Option.some.inj h) ▸ foldl_max_first ms m

theorem counterpartyOf_eq_some (thr : ℚ) (best : String × BalanceChange) :
    ∀ (sig : List (String × BalanceChange)) (c : String × BalanceChange),
      counterpartyOf thr best sig = some c →
      (c.1 ≠ best.1 ∧ |c.2.change + best.2.change| < thr) ∧
      ∃ l1 l2, sig = l1 ++ c :: l2 ∧
        ∀ x ∈ l1, ¬ (x.1 ≠ best.1 ∧ |x.2.change + best.2.change| < thr) := by
  intro sig
  induction sig with
  | nil => intro c h; simp [counterpartyOf] at h
  | cons t ts ih =>
    intro c h
    by_cases hp : t.1 ≠ best.1 ∧ |t.2.change + best.2.change| < thr
    · rw [counterpartyOf, if_pos hp] at h
      have he := Option.some.inj h
      subst he
      exact ⟨hp, [], ts, rfl, by simp⟩
    · rw [counterpartyOf, if_neg hp] at h
      obtain ⟨hc, l1, l2, heq, hnone⟩ := ih c h
      refine ⟨hc, t :: l1, l2, by rw [heq, List.cons_append], ?_⟩
      intro x hx
      rcases List.mem_cons.mp hx with h1 | hx2
      · rw [h1]; exact hp
      · exact hnone x hx2

theorem counterpartyOf_eq_none (thr : ℚ) (best : String × BalanceChange) :
    ∀ sig : List (String × BalanceChange),
      counterpartyOf thr best sig = none →
      ∀ c ∈ sig, ¬ (c.1 ≠ best.1 ∧ |c.2.change + best.2.change| < thr) := by
  intro sig
  induction sig with
  | nil => intro _ c hc; simp at hc
  | cons t ts ih =>
    intro h c hc
    by_cases hp : t.1 ≠ best.1 ∧ |t.2.change + best.2.change| < thr
    · rw [counterpartyOf, if_pos hp] at h
      exact absurd h (by simp)
    · rw [counterpartyOf, if_neg hp] at h
      rcases List.mem_cons.mp hc with h1 | hc2
      · rw [h1]; exact hp
      · exact ih h c hc2

theorem parseTransaction_eq_some (thr target tol : ℚ) (tx : Tx) (r : MatchedTransfer)
    (h : parseTransaction thr tx target tol = some r) :
    ∃ b, bestMatchOf (matchesOf target tol
        (significantTransfers thr (balanceChangesOf thr tx))) = some b ∧
      r = mkResult thr tx b := by
  unfold parseTransaction at h
  split_ifs at h
  cases hb : bestMatchOf (matchesOf target tol
      (significantTransfers thr (balanceChangesOf thr tx))) with
  | none => rw [hb] at h; exact absurd h (by simp)
  | some b =>
    rw [hb] at h
    exact ⟨b, rfl, (Option.some.inj h).symm⟩

theorem parseTransaction_none_of_no_match (thr target tol : ℚ) (tx : Tx)
    (h : matchesOf target tol (significantTransfers thr (balanceChangesOf thr tx)) = []) :
    parseTransaction thr tx target tol = none := by
  unfold parseTransaction
  split_ifs <;> try rfl
  rw [h]
  rfl

/-- Claim C2: for every target_amount T and tolerance τ ≥ 0, a candidate is
placed in the match set exactly when the absolute difference between
abs(change) and T is at most τ (both endpoints eligible, anything strictly
outside excluded), and when the match set is empty the Matcher returns no
MatchedTransfer. -/
theorem matcher_tolerance_window_spec (thr target tol : ℚ) (htol : 0 ≤ tol) (tx : Tx) :
    (∀ t, t ∈ matchesOf target tol
        (significantTransfers thr (balanceChangesOf thr tx)) ↔
      t ∈ significantTransfers thr (balanceChangesOf thr tx) ∧
        |(|t.2.change|) - target| ≤ tol) ∧
    (matchesOf target tol (significantTransfers thr (balanceChangesOf thr tx)) = [] →
      parseTransaction thr tx target tol = none) :=
  ⟨fun t => mem_matchesOf target tol t _,
    parseTransaction_none_of_no_match thr target tol tx⟩

/-- Claim C3: for every transaction with a non-empty match set, best_match
is the match of largest absolute change (earliest on ties, as shown by the
strict bound on the prefix), and the returned MatchedTransfer's amount is
its absolute change. -/
theorem matcher_best_match_spec (thr target tol : ℚ) (tx : Tx) (r : MatchedTransfer)
    (hr : parseTransaction thr tx target tol = some r) :
    ∃ b, bestMatchOf (matchesOf target tol
        (significantTransfers thr (balanceChangesOf thr tx))) = some b ∧
      b ∈ matchesOf target tol (significantTransfers thr (balanceChangesOf thr tx)) ∧
      (∀ t ∈ matchesOf target tol (significantTransfers thr (balanceChangesOf thr tx)),
        |t.2.change| ≤ |b.2.change|) ∧
      (∃ l1 l2, matchesOf target tol
          (significantTransfers thr (balanceChangesOf thr tx)) = l1 ++ b :: l2 ∧
        ∀ x ∈ l1, |x.2.change| < |b.2.change|) ∧
      r.amount = |b.2.change| := by
  obtain ⟨b, hb, hr'⟩ := parseTransaction_eq_some thr target tol tx r hr
  exact ⟨b, hb, bestMatchOf_mem _ b hb, bestMatchOf_ge _ b hb,
    bestMatchOf_first _ b hb, by rw [hr']; simp [mkResult]⟩

/-- Claim C4: for every transaction with a non-empty match set, the
counterparty is the first candidate in production order, other than
best_match's account, whose change cancels best_match's change to within
min_threshold, or absent when none exists; sender is best_match's account
on a negative change, else the counterparty's account when found; receiver
symmetrically on a positive change. -/
theorem matcher_counterparty_spec (thr target tol : ℚ) (tx : Tx) (r : MatchedTransfer)
    (hr : parseTransaction thr tx target tol = some r) :
    ∃ b, bestMatchOf (matchesOf target tol
        (significantTransfers thr (balanceChangesOf thr tx))) = some b ∧
      (∀ c, counterpartyOf thr b
          (significantTransfers thr (balanceChangesOf thr tx)) = some c →
        (c.1 ≠ b.1 ∧ |c.2.change + b.2.change| < thr) ∧
        ∃ l1 l2, significantTransfers thr (balanceChangesOf thr tx) = l1 ++ c :: l2 ∧
          ∀ x ∈ l1, ¬ (x.1 ≠ b.1 ∧ |x.2.change + b.2.change| < thr)) ∧
      (counterpartyOf thr b
          (significantTransfers thr (balanceChangesOf thr tx)) = none →
        ∀ c ∈ significantTransfers thr (balanceChangesOf thr tx),
          ¬ (c.1 ≠ b.1 ∧ |c.2.change + b.2.change| < thr)) ∧
      r.sender = (if b.2.change < 0 then some b.1
        else (counterpartyOf thr b
          (significantTransfers thr (balanceChangesOf thr tx))).map Prod.fst) ∧
      r.receiver = (if 0 < b.2.change then some b.1
        else (counterpartyOf thr b
          (significantTransfers thr (balanceChangesOf thr tx))).map Prod.fst) := by
  obtain ⟨b, hb, hr'⟩ := parseTransaction_eq_some thr target tol tx r hr
  refine ⟨b, hb, ?_, ?_, ?_, ?_⟩
  · intro c hc
    exact counterpartyOf_eq_some thr b _ c hc
  · intro hc
    exact counterpartyOf_eq_none thr b _ hc
  · rw [hr']
    simp [mkResult]
  · rw [hr']
    simp [mkResult]

/-- Claim C5: a transaction with a non-null error status, or with an empty
pre-balance array, post-balance array or account-key list, yields no
MatchedTransfer, whatever the remaining contents are. -/
theorem matcher_reject_spec (thr target tol : ℚ) (tx : Tx)
    (h : (metaOf tx).err.isSome ∨ (metaOf tx).preBalances = [] ∨
      (metaOf tx).postBalances = [] ∨ accountKeysOf tx = []) :
    parseTransaction thr tx target tol = none := by
  unfold parseTransaction
  split_ifs with h1 h2 h3
  · rfl
  · rfl
  · rfl
  · exfalso
    rcases h with h | h | h | h
    · exact h1 h
    · exact h2 (Or.inl h)
    · exact h2 (Or.inr h)
    · exact h3 h

/-- A concrete two-account transfer exercising the matcher: account "A"
sends 5 SOL to account "B", fee 5000 lamports. -/
def txW : Tx :=
  { meta := some ⟨none, [5000000000, 0], [0, 5000000000], 5000⟩
    transaction := some { message := some ⟨some ["A", "B"], []⟩, signatures := some ["sig1"] }
    message := none }

/-- What `_parse_transaction` returns on `txW` with threshold 0.001,
target 5 and tolerance 0.1. -/
def rW : MatchedTransfer :=
  { amount := 5
    sender := some "A"
    receiver := some "B"
    fee := 1 / 200000
    balance_changes := [("A", ⟨5, 0, -5⟩), ("B", ⟨0, 5, 5⟩)] }

theorem txW_parse : parseTransaction (1/1000) txW 5 (1/10) = some rW := by
  norm_num [parseTransaction, metaOf, messageOf, accountKeysOf, balanceChangesOf,
    analyzeBalanceChanges, analyzeAux, dictInsert, significantTransfers, matchesOf,
    bestMatchOf, maxByAbsChange, counterpartyOf, mkResult, lamportsToSol,
    emptyMeta, emptyMessage, txW, rW, abs, max_def]
  decide

/-- Witness for the C2 theorem at a concrete input. -/
theorem matcher_tolerance_window_spec_witness :
    (∀ t, t ∈ matchesOf 5 (1/10)
        (significantTransfers (1/1000) (balanceChangesOf (1/1000) txW)) ↔
      t ∈ significantTransfers (1/1000) (balanceChangesOf (1/1000) txW) ∧
        |(|t.2.change|) - 5| ≤ 1/10) ∧
    (matchesOf 5 (1/10)
        (significantTransfers (1/1000) (balanceChangesOf (1/1000) txW)) = [] →
      parseTransaction (1/1000) txW 5 (1/10) = none) :=
  matcher_tolerance_window_spec (1/1000) 5 (1/10) (by norm_num) txW

/-- Witness for the C3 theorem on the concrete transfer `txW`. -/
theorem matcher_best_match_spec_witness :
    ∃ b, bestMatchOf (matchesOf 5 (1/10)
        (significantTransfers (1/1000) (balanceChangesOf (1/1000) txW))) = some b ∧
      b ∈ matchesOf 5 (1/10)
        (significantTransfers (1/1000) (balanceChangesOf (1/1000) txW)) ∧
      (∀ t ∈ matchesOf 5 (1/10)
          (significantTransfers (1/1000) (balanceChangesOf (1/1000) txW)),
        |t.2.change| ≤ |b.2.change|) ∧
      (∃ l1 l2, matchesOf 5 (1/10)
          (significantTransfers (1/1000) (balanceChangesOf (1/1000) txW)) = l1 ++ b :: l2 ∧
        ∀ x ∈ l1, |x.2.change| < |b.2.change|) ∧
      rW.amount = |b.2.change| :=
  matcher_best_match_spec (1/1000) 5 (1/10) txW rW txW_parse

/-- Witness for the C4 theorem on the concrete transfer `txW`. -/
theorem matcher_counterparty_spec_witness :
    ∃ b, bestMatchOf (matchesOf 5 (1/10)
        (significantTransfers (1/1000) (balanceChangesOf (1/1000) txW))) = some b ∧
      (∀ c, counterpartyOf (1/1000) b
          (significantTransfers (1/1000) (balanceChangesOf (1/1000) txW)) = some c →
        (c.1 ≠ b.1 ∧ |c.2.change + b.2.change| < 1/1000) ∧
        ∃ l1 l2, significantTransfers (1/1000) (balanceChangesOf (1/1000) txW) =
            l1 ++ c :: l2 ∧
          ∀ x ∈ l1, ¬ (x.1 ≠ b.1 ∧ |x.2.change + b.2.change| < 1/1000)) ∧
      (counterpartyOf (1/1000) b
          (significantTransfers (1/1000) (balanceChangesOf (1/1000) txW)) = none →
        ∀ c ∈ significantTransfers (1/1000) (balanceChangesOf (1/1000) txW),
          ¬ (c.1 ≠ b.1 ∧ |c.2.change + b.2.change| < 1/1000)) ∧
      rW.sender = (if b.2.change < 0 then some b.1
        else (counterpartyOf (1/1000) b
          (significantTransfers (1/1000) (balanceChangesOf (1/1000) txW))).map Prod.fst) ∧
      rW.receiver = (if 0 < b.2.change then some b.1
        else (counterpartyOf (1/1000) b
          (significantTransfers (1/1000) (balanceChangesOf (1/1000) txW))).map Prod.fst) :=
  matcher_counterparty_spec (1/1000) 5 (1/10) txW rW txW_parse

/-- A transaction whose metadata carries a non-null error status. -/
def txErr : Tx :=
  { meta := some ⟨some (), [1000000000], [0], 0⟩
    transaction := none
    message := none }

/-- Witness for the C5 theorem: the errored transaction is rejected. -/
theorem matcher_reject_spec_witness :
    parseTransaction 1 txErr 5 (1/10) = none :=
  matcher_reject_spec 1 5 (1/10) txErr (Or.inl rfl)

/-- The responses the RPC endpoint gives this one scan, per JSON-RPC
method: each field is the decoded `result` (`none` when the gateway
exhausted its retries or the response carried no usable result;
`get_block_transactions` already degrades to `[]` inside the code, so it
is modelled as a plain list). -/
structure RpcOracle where
  getSlotResult : Option ℤ
  getBlocksResult : ℤ → ℤ → Option (List ℤ)
  getBlockTimeResult : ℤ → Option ℤ
  getBlockTransactionsResult : ℤ → List Tx

/-- `SolanaRPCClient.get_latest_block`: the `result` of `getSlot`,
defaulting to 0 when the request failed or the response had no result. -/
def getLatestBlock (o : RpcOracle) : ℤ := o.getSlotResult.getD 0

/-- Insertion step of `sorted(blocks, reverse=True)` on (slot, time)
pairs: descending lexicographic order. -/
def insertDesc (x : ℤ × ℤ) : List (ℤ × ℤ) → List (ℤ × ℤ)
  | [] => [x]
  | y :: ys =>
    if y.1 < x.1 ∨ (y.1 = x.1 ∧ y.2 ≤ x.2) then x :: y :: ys
    else y :: insertDesc x ys

/-- `sorted(blocks, reverse=True)`: equal pairs are indistinguishable, so
any sorting realisation agrees with Python's. -/
def sortDesc : List (ℤ × ℤ) → List (ℤ × ℤ)
  | [] => []
  | x :: xs => insertDesc x (sortDesc xs)

/-- The per-slot body of the `get_recent_blocks` loop: fetch the block
time and keep the pair only when the time is truthy — Python's
`if block_time:` drops both an absent time and a zero one. -/
def slotWithTime (o : RpcOracle) (slot : ℤ) : Option (ℤ × ℤ) :=
  match o.getBlockTimeResult slot with
  | some t => if t = 0 then none else some (slot, t)
  | none => none

/-- `SolanaRPCClient.get_recent_blocks(limit)`: request the inclusive slot
range from `latest - limit` to `latest`; return `[]` when that request
yields no result; otherwise keep the returned slots with a truthy block
time and sort the pairs descending. -/
def getRecentBlocks (o : RpcOracle) (limit : ℤ) : List (ℤ × ℤ) :=
  match o.getBlocksResult (getLatestBlock o - limit) (getLatestBlock o) with
  | none => []
  | some slots => sortDesc (slots.filterMap (slotWithTime o))

theorem mem_insertDesc (x z : ℤ × ℤ) :
    ∀ l : List (ℤ × ℤ), z ∈ insertDesc x l ↔ z = x ∨ z ∈ l := by
  intro l
  induction l with
  | nil => simp [insertDesc]
  | cons y ys ih =>
    by_cases hc : y.1 < x.1 ∨ (y.1 = x.1 ∧ y.2 ≤ x.2)
    · rw [insertDesc, if_pos hc]
      simp [List.mem_cons]
    · rw [insertDesc, if_neg hc]
      simp only [List.mem_cons, ih]
      tauto

theorem mem_sortDesc (z : ℤ × ℤ) :
    ∀ l : List (ℤ × ℤ), z ∈ sortDesc l ↔ z ∈ l := by
  intro l
  induction l with
  | nil => simp [sortDesc]
  | cons x xs ih =>
    rw [sortDesc, mem_insertDesc]
    simp only [List.mem_cons, ih]

theorem pairwise_insertDesc (x : ℤ × ℤ) :
    ∀ l : List (ℤ × ℤ), l.Pairwise (fun a b => b.1 ≤ a.1) →
      (insertDesc x l).Pairwise (fun a b => b.1 ≤ a.1) := by
  intro l
  induction l with
  | nil => intro _; simp [insertDesc]
  | cons y ys ih =>
    intro h
    rw [List.pairwise_cons] at h
    by_cases hc : y.1 < x.1 ∨ (y.1 = x.1 ∧ y.2 ≤ x.2)
    · rw [insertDesc, if_pos hc]
      have hyx : y.1 ≤ x.1 := by
        rcases hc with hlt | ⟨heq, _⟩
        · exact le_of_lt hlt
        · exact le_of_eq heq
      refine List.Pairwise.cons ?_ (List.Pairwise.cons h.1 h.2)
      intro z hz
      rcases List.mem_cons.mp hz with h1 | h2
      · rw [h1]; exact hyx
      · exact le_trans (h.1 z h2) hyx
    · rw [insertDesc, if_neg hc]
      push_neg at hc
      refine List.Pairwise.cons ?_ (ih h.2)
      intro z hz
      rcases (mem_insertDesc x z ys).mp hz with h1 | h2
      · rw [h1]; exact hc.1
      · exact h.1 z h2

theorem pairwise_sortDesc :
    ∀ l : List (ℤ × ℤ), (sortDesc l).Pairwise (fun a b => b.1 ≤ a.1) := by
  intro l
  induction l with
  | nil => simp [sortDesc]
  | cons x xs ih => exact pairwise_insertDesc x (sortDesc xs) ih

theorem getRecentBlocks_none (o : RpcOracle) (limit : ℤ)
    (h : o.getBlocksResult (getLatestBlock o - limit) (getLatestBlock o) = none) :
    getRecentBlocks o limit = [] := by
  unfold getRecentBlocks
  rw [h]

theorem getRecentBlocks_processed (o : RpcOracle) (limit : ℤ) (slots : List ℤ)
    (hs : o.getBlocksResult (getLatestBlock o - limit) (getLatestBlock o) = some slots)
    (s t : ℤ) :
    (s, t) ∈ getRecentBlocks o limit ↔
      s ∈ slots ∧ o.getBlockTimeResult s = some t ∧ t ≠ 0 := by
  unfold getRecentBlocks
  rw [hs, mem_sortDesc, List.mem_filterMap]
  constructor
  · rintro ⟨a, ha, hfa⟩
    rw [slotWithTime] at hfa
    cases hbt : o.getBlockTimeResult a with
    | none =>
      rw [hbt] at hfa
      simp at hfa
    | some u =>
      rw [hbt] at hfa
      by_cases hu : u = 0
      · simp [hu] at hfa
      · simp only [hu, if_false] at hfa
        simp only [Option.some.injEq, Prod.mk.injEq] at hfa
        obtain ⟨rfl, rfl⟩ := hfa
        exact ⟨ha, hbt, hu⟩
  · rintro ⟨hmem, hbt, ht0⟩
    refine ⟨s, hmem, ?_⟩
    rw [slotWithTime, hbt]
    simp [ht0]

theorem getRecentBlocks_pairwise (o : RpcOracle) (limit : ℤ) :
    (getRecentBlocks o limit).Pairwise (fun a b => b.1 ≤ a.1) := by
  unfold getRecentBlocks
  cases o.getBlocksResult (getLatestBlock o - limit) (getLatestBlock o) with
  | none => simp
  | some slots => exact pairwise_sortDesc _

/-- Claim C7 fails as stated on a retrieved block time of 0: Python's
`if block_time:` treats 0 as falsy, so slot 7 is dropped even though its
block time was retrieved. -/
def oracleC7 : RpcOracle :=
  { getSlotResult := some 10
    getBlocksResult := fun _ _ => some [7]
    getBlockTimeResult := fun _ => some 0
    getBlockTransactionsResult := fun _ => [] }

/-- Counterexample to claim C7: slot 7 is in the returned range and its
block time was retrieved (as 0), yet the output is empty instead of
containing (7, 0). -/
theorem get_recent_blocks_zero_time_counterexample :
    oracleC7.getBlocksResult (getLatestBlock oracleC7 - 5) (getLatestBlock oracleC7) =
      some [7] ∧
    oracleC7.getBlockTimeResult 7 = some 0 ∧
    getRecentBlocks oracleC7 5 = [] := by
  refine ⟨rfl, rfl, ?_⟩
  unfold getRecentBlocks
  simp [oracleC7, slotWithTime, sortDesc]

/-- Claim C7 (amended): get_recent_blocks requests the inclusive slot
range from latest − limit to latest; it returns the empty sequence when
that request yields no result, its output is sorted in descending slot
order, and it contains exactly those returned slots whose block time was
retrieved as a nonzero value (an absent block time, and equally a zero
one, is silently dropped with no error raised). -/
theorem get_recent_blocks_spec (o : RpcOracle) (limit : ℤ) :
    (o.getBlocksResult (getLatestBlock o - limit) (getLatestBlock o) = none →
      getRecentBlocks o limit = []) ∧
    (getRecentBlocks o limit).Pairwise (fun a b => b.1 ≤ a.1) ∧
    (∀ slots, o.getBlocksResult (getLatestBlock o - limit) (getLatestBlock o) =
        some slots →
      ∀ s t : ℤ, (s, t) ∈ getRecentBlocks o limit ↔
        s ∈ slots ∧ o.getBlockTimeResult s = some t ∧ t ≠ 0) :=
  ⟨getRecentBlocks_none o limit, getRecentBlocks_pairwise o limit,
    fun slots hs s t => getRecentBlocks_processed o limit slots hs s t⟩

/-- An oracle whose getSlot request fails and whose getBlocks request for
the fallback range returns an empty slot list. -/
def oracleC10 : RpcOracle :=
  { getSlotResult := none
    getBlocksResult := fun _ _ => some []
    getBlockTimeResult := fun _ => none
    getBlockTransactionsResult := fun _ => [] }

/-- Counterexample to claim C10's final clause: the getBlocks request
does yield a result (the empty slot list), yet get_recent_blocks still
returns the empty sequence. -/
theorem get_recent_blocks_empty_list_counterexample :
    oracleC10.getBlocksResult (getLatestBlock oracleC10 - 5) (getLatestBlock oracleC10) =
      some [] ∧
    getRecentBlocks oracleC10 5 = [] := by
  constructor
  · rfl
  · unfold getRecentBlocks
    simp [oracleC10, sortDesc]

/-- Claim C10 (amended): when the getSlot query fails or lacks a result,
get_latest_block returns 0 rather than signalling failure, and
get_recent_blocks proceeds to request the slot range from 0 − limit to 0
instead of short-circuiting; a missing getBlocks result yields the empty
sequence, and a returned slot list is processed normally — so the output
may also be empty when that list is empty or no slot has a truthy block
time. -/
theorem get_latest_block_fallback_spec (o : RpcOracle) (limit : ℤ)
    (h : o.getSlotResult = none) :
    getLatestBlock o = 0 ∧
    (o.getBlocksResult (0 - limit) 0 = none → getRecentBlocks o limit = []) ∧
    (∀ slots, o.getBlocksResult (0 - limit) 0 = some slots →
      ∀ s t : ℤ, (s, t) ∈ getRecentBlocks o limit ↔
        s ∈ slots ∧ o.getBlockTimeResult s = some t ∧ t ≠ 0) := by
  have hl : getLatestBlock o = 0 := by rw [getLatestBlock, h]; rfl
  refine ⟨hl, ?_, ?_⟩
  · intro hb
    exact getRecentBlocks_none o limit (by rw [hl]; exact hb)
  · intro slots hs s t
    exact getRecentBlocks_processed o limit slots (by rw [hl]; exact hs) s t

/-- An oracle whose getSlot and getBlocks requests both fail. -/
def oracleC10w : RpcOracle :=
  { getSlotResult := none
    getBlocksResult := fun _ _ => none
    getBlockTimeResult := fun _ => none
    getBlockTransactionsResult := fun _ => [] }

/-- Witness for the amended C10 theorem at a concrete oracle. -/
theorem get_latest_block_fallback_spec_witness :
    getLatestBlock oracleC10w = 0 ∧
    (oracleC10w.getBlocksResult (0 - 5) 0 = none → getRecentBlocks oracleC10w 5 = []) ∧
    (∀ slots, oracleC10w.getBlocksResult (0 - 5) 0 = some slots →
      ∀ s t : ℤ, (s, t) ∈ getRecentBlocks oracleC10w 5 ↔
        s ∈ slots ∧ oracleC10w.getBlockTimeResult s = some t ∧ t ≠ 0) :=
  get_latest_block_fallback_spec oracleC10w 5 rfl

/-- The `Transaction` dataclass records accumulated by `scan_for_amount`. -/
structure Transaction where
  tx_hash : String
  amount : ℚ
  block_height : ℤ
  block_time : ℤ
  sender : Option String
  receiver : Option String
  fee : ℚ
  balance_changes : List (String × BalanceChange)
  deriving DecidableEq, Repr

/-- `tx.get("transaction", ...).get("signatures", [""])`: the default
singleton `[""]` applies only when the key is absent, not when the list is
present but empty. -/
def sigListOf (tx : Tx) : List String :=
  ((tx.transaction.getD ⟨none, none⟩).signatures).getD [""]

/-- The `[0]` index on the signatures list in `scan_for_amount`: `none`
models the IndexError Python raises on an empty list. -/
def txHash (tx : Tx) : Option String := (sigListOf tx).head?

/-- The inner loop of `scan_for_amount` over one block's transactions:
parse each; on a match, index the signatures list (which can raise,
modelled as `Except.error`) and append the record. -/
def scanBlockTxs (thr target tol : ℚ) (slot bt : ℤ) :
    List Tx → List Transaction → Except Unit (List Transaction)
  | [], acc => Except.ok acc
  | tx :: rest, acc =>
    match parseTransaction thr tx target tol with
    | none => scanBlockTxs thr target tol slot bt rest acc
    | some transfer =>
      match txHash tx with
      | none => Except.error ()
      | some h =>
        scanBlockTxs thr target tol slot bt rest
          (acc ++ [⟨h, transfer.amount, slot, bt, transfer.sender,
            transfer.receiver, transfer.fee, transfer.balance_changes⟩])

/-- The outer loop of `scan_for_amount` over the resolved blocks, fetching
each block's transactions through the gateway. -/
def scanBlocks (thr target tol : ℚ) (o : RpcOracle) :
    List (ℤ × ℤ) → List Transaction → Except Unit (List Transaction)
  | [], acc => Except.ok acc
  | (slot, bt) :: rest, acc =>
    match scanBlockTxs thr target tol slot bt
        (o.getBlockTransactionsResult slot) acc with
    | Except.error e => Except.error e
    | Except.ok acc2 => scanBlocks thr target tol o rest acc2

/-- `TransactionScanner.scan_for_amount(amount_in_sol, block_limit,
tolerance)` with the client's threshold: resolve the block window; return
the empty list at once when it is empty; otherwise scan every block's
transactions in order. -/
def scanForAmount (o : RpcOracle) (thr amount_in_sol : ℚ) (block_limit : ℤ)
    (tolerance : ℚ) : Except Unit (List Transaction) :=
  match getRecentBlocks o block_limit with
  | [] => Except.ok []
  | b :: bs => scanBlocks thr amount_in_sol tolerance o (b :: bs) []

/-- Claim C8: whenever the window resolver yields zero blocks,
scan_for_amount returns the empty sequence, and the result does not
depend on the per-block transaction responses at all — no getBlock work
happens (`o2` may answer getBlock arbitrarily as long as it resolves the
window like `o`). -/
theorem scan_empty_window_spec (o o2 : RpcOracle) (thr target tol : ℚ) (limit : ℤ)
    (h1 : o2.getSlotResult = o.getSlotResult)
    (h2 : o2.getBlocksResult = o.getBlocksResult)
    (h3 : o2.getBlockTimeResult = o.getBlockTimeResult)
    (hres : getRecentBlocks o limit = []) :
    scanForAmount o2 thr target limit tol = Except.ok [] := by
  have hlat : getLatestBlock o2 = getLatestBlock o := by
    rw [getLatestBlock, getLatestBlock, h1]
  have hsame : getRecentBlocks o2 limit = getRecentBlocks o limit := by
    unfold getRecentBlocks slotWithTime
    rw [hlat, h2, h3]
  unfold scanForAmount
  rw [hsame, hres]

/-- An oracle whose getBlocks request fails: the window resolves to
nothing. -/
def oracleEmptyWin : RpcOracle :=
  { getSlotResult := some 10
    getBlocksResult := fun _ _ => none
    getBlockTimeResult := fun _ => none
    getBlockTransactionsResult := fun _ => [] }

/-- The same window responses, but a getBlock oracle that would produce a
matching transaction were it ever consulted. -/
def oracleEmptyWin2 : RpcOracle :=
  { getSlotResult := some 10
    getBlocksResult := fun _ _ => none
    getBlockTimeResult := fun _ => none
    getBlockTransactionsResult := fun _ => [txW] }

/-- Witness for the C8 theorem at a concrete pair of oracles. -/
theorem scan_empty_window_spec_witness :
    scanForAmount oracleEmptyWin2 (1/1000) 5 3 (1/10) = Except.ok [] :=
  scan_empty_window_spec oracleEmptyWin oracleEmptyWin2 (1/1000) 5 (1/10) 3
    rfl rfl rfl (by unfold getRecentBlocks; rfl)

/-- A matching transaction whose signatures list is present but empty. -/
def txNoSig : Tx :=
  { meta := some ⟨none, [5000000000, 0], [0, 5000000000], 5000⟩
    transaction := some { message := some ⟨some ["A", "B"], []⟩, signatures := some [] }
    message := none }

/-- An oracle delivering one block holding only `txNoSig`. -/
def oracleNoSig : RpcOracle :=
  { getSlotResult := some 10
    getBlocksResult := fun _ _ => some [9]
    getBlockTimeResult := fun _ => some 100
    getBlockTransactionsResult := fun _ => [txNoSig] }

/-- Claim C6 fails on the code: `txNoSig` matches (its parse succeeds) yet
its signatures list is empty, so the `[0]` access in `scan_for_amount`
raises an IndexError that no handler catches — the scan aborts instead of
degrading to a partial result. -/
theorem scan_raises_on_empty_signatures :
    parseTransaction (1/1000) txNoSig 5 (1/10) = some rW ∧
    sigListOf txNoSig = [] ∧
    scanForAmount oracleNoSig (1/1000) 5 3 (1/10) = Except.error () := by
  refine ⟨?_, rfl, ?_⟩
  · norm_num [parseTransaction, metaOf, messageOf, accountKeysOf, balanceChangesOf,
      analyzeBalanceChanges, analyzeAux, dictInsert, significantTransfers, matchesOf,
      bestMatchOf, maxByAbsChange, counterpartyOf, mkResult, lamportsToSol,
      emptyMeta, emptyMessage, txNoSig, rW, abs, max_def]
    decide
  · norm_num [scanForAmount, getRecentBlocks, getLatestBlock, slotWithTime, sortDesc,
      insertDesc, scanBlocks, scanBlockTxs, txHash, sigListOf, oracleNoSig,
      parseTransaction, metaOf, messageOf, accountKeysOf, balanceChangesOf,
      analyzeBalanceChanges, analyzeAux, dictInsert, significantTransfers, matchesOf,
      bestMatchOf, maxByAbsChange, counterpartyOf, mkResult, lamportsToSol,
      emptyMeta, emptyMessage, txNoSig, abs, max_def]
    simp
